import Mathlib

/-!
Verification of the batch TTS/ASR evaluation harness (`main5.py`).

Embedding conventions:
* Python strings are modelled as `List Char`; `str.splitlines` is modelled on
  the `'\n'` line boundary (the one produced by the tool's stdout).
* Python's Unicode character classes (`str.isalnum`, `str.isspace`,
  `str.lower`) are modelled on the ASCII range plus the specific non-ASCII
  punctuation characters the program mentions; the facts the proofs use
  (alphanumeric and whitespace classes are disjoint, lowercasing is
  idempotent) hold for the full Unicode classes as well.
* `subprocess.run` of an external executable is modelled as an oracle
  function from the invocation's input to an exit code and captured stdout.
* Python float division `edits / n` is modelled exactly in `ℚ`.
-/

/-- Whitespace test modelling Python's `str.isspace`/`str.split` on the ASCII
whitespace characters space, tab, newline, carriage return, vertical tab and
form feed. -/
def pyIsSpace (c : Char) : Bool :=
  c.toNat = 32 || c.toNat = 9 || c.toNat = 10 || c.toNat = 13 ||
  c.toNat = 11 || c.toNat = 12

/-- Alphanumeric test modelling Python's `str.isalnum` on the ASCII range. -/
def pyIsAlnum (c : Char) : Bool :=
  (97 ≤ c.toNat && c.toNat ≤ 122) || (65 ≤ c.toNat && c.toNat ≤ 90) ||
  (48 ≤ c.toNat && c.toNat ≤ 57)

/-- Lowercasing a single character, modelling `str.lower` on ASCII letters. -/
def pyLower (c : Char) : Char :=
  if 65 ≤ c.toNat && c.toNat ≤ 90 then Char.ofNat (c.toNat + 32) else c

/-- `listStartsWith p s` is `s.startswith(p)` for strings as char lists. -/
def listStartsWith : List Char → List Char → Bool
  | [], _ => true
  | _ :: _, [] => false
  | a :: as, b :: bs => a = b && listStartsWith as bs

/-- Python `str.strip()`: remove leading and trailing whitespace. -/
def pyStrip (s : List Char) : List Char :=
  ((s.dropWhile pyIsSpace).reverse.dropWhile pyIsSpace).reverse

/-- Split a char list at every `'\n'`, keeping empty pieces (so
`splitNL []` is `[[]]`, matching `"".split`-style behaviour). -/
def splitNL : List Char → List (List Char)
  | [] => [[]]
  | c :: rest =>
    if c = '\n' then [] :: splitNL rest
    else
      match splitNL rest with
      | [] => [[c]]
      | l :: ls => (c :: l) :: ls

/-- Python `str.splitlines()` on the `'\n'` boundary: the empty string gives
no lines, and a trailing newline produces no trailing empty line. -/
def pySplitlines (s : List Char) : List (List Char) :=
  match s with
  | [] => []
  | _ => if s.getLast? = some '\n' then (splitNL s).dropLast else splitNL s

/-- The failure sentinel literal of `extract_final_transcription`. -/
def sentinel : List Char := String.toList "Batch transcription failed:"

/-- The marker literal of `extract_final_transcription`. -/
def marker : List Char := String.toList "Final transcription:"

/-- The inner scan of `extract_final_transcription` (`main5.py` lines
180-188): walk the lines after the marker, skip blank lines, stop (returning
nothing) at a separator line — a stripped line of only `=`/`-` longer than
5 — and otherwise return the first stripped non-blank line. -/
def scanAfter : List (List Char) → Option (List Char)
  | [] => none
  | l :: rest =>
    let s := pyStrip l
    if s = [] then scanAfter rest
    else if s.all (fun c => c = '=' || c = '-') && decide (s.length > 5) then none
    else some s

/-- The outer marker search of `extract_final_transcription` (lines 177-178):
return the lines after the first line whose stripped form starts with
`"Final transcription:"`. -/
def findMarkerRest : List (List Char) → Option (List (List Char))
  | [] => none
  | l :: rest =>
    if listStartsWith marker (pyStrip l) then some rest else findMarkerRest rest

/-- The fallback of `extract_final_transcription` (lines 190-192) on a
reversed line list: first non-blank line, stripped, else empty. -/
def lastNonBlankRev : List (List Char) → List Char
  | [] => []
  | l :: rest => if pyStrip l = [] then lastNonBlankRev rest else pyStrip l

/-- The fallback of `extract_final_transcription`: the last non-blank line of
the output, stripped, or the empty string. -/
def lastNonBlank (lines : List (List Char)) : List Char :=
  lastNonBlankRev lines.reverse

/-- The marker-then-fallback part of `extract_final_transcription` (lines
177-193), reached when no line trips the sentinel check. -/
def extractRest (lines : List (List Char)) : List Char :=
  match findMarkerRest lines with
  | some rest =>
    match scanAfter rest with
    | some s => s
    | none => lastNonBlank lines
  | none => lastNonBlank lines

/-- `extract_final_transcription` (`main5.py` lines 170-193): sentinel check
over all lines, then first-marker scan, then last-non-blank fallback. -/
def extract_final_transcription (stdout : List Char) : List Char :=
  if (pySplitlines stdout).any (fun l => listStartsWith sentinel (pyStrip l)) then []
  else extractRest (pySplitlines stdout)

/-- The chained `str.replace` calls of `wer_light.norm` (`main5.py` lines
200-207): every pattern is a single character and no replacement contains a
later pattern, so the sequential replaces act as one character-wise map. -/
def replaceChar (c : Char) : List Char :=
  if c = '’' then ['\'']
  else if c = '‘' then ['\'']
  else if c = '“' then ['"']
  else if c = '”' then ['"']
  else if c = '—' then ['-']
  else if c = '…' then ['.', '.', '.']
  else [c]

/-- Accumulator loop for Python `str.split()` with no argument: `cur` is the
reversed in-progress word; whitespace flushes a non-empty word and is
discarded. -/
def pySplitAux : List Char → List Char → List (List Char)
  | [], cur => if cur = [] then [] else [cur.reverse]
  | c :: rest, cur =>
    if pyIsSpace c then
      if cur = [] then pySplitAux rest [] else cur.reverse :: pySplitAux rest []
    else pySplitAux rest (c :: cur)

/-- Python `str.split()` with no argument: the maximal whitespace-free runs
of the string, in order, with no empty words. -/
def pySplit (s : List Char) : List (List Char) := pySplitAux s []

/-- `" ".join(ws)`: the words joined by single spaces. -/
def joinSp : List (List Char) → List Char
  | [] => []
  | [w] => w
  | w :: ws => w ++ ' ' :: joinSp ws

/-- `wer_light.norm` (`main5.py` lines 198-208): lowercase, normalize the
Unicode punctuation, then collapse whitespace via `" ".join(t.split())`. -/
def norm (x : List Char) : List Char :=
  joinSp (pySplit ((x.map pyLower).flatMap replaceChar))

/-- The character class `wer_light.tokenize` accumulates: alphanumeric or
apostrophe (`main5.py` line 214). -/
def tokenChar (c : Char) : Bool := pyIsAlnum c || c = '\''

/-- The accumulator loop of `wer_light.tokenize` (`main5.py` lines 210-222):
`cur` is the reversed in-progress token buffer; a non-token character flushes
a non-empty buffer and is discarded. -/
def tokenizeAux : List Char → List Char → List (List Char)
  | [], cur => if cur = [] then [] else [cur.reverse]
  | c :: rest, cur =>
    if tokenChar c then tokenizeAux rest (c :: cur)
    else if cur = [] then tokenizeAux rest [] else cur.reverse :: tokenizeAux rest []

/-- `wer_light.tokenize`: run the accumulator loop with an empty buffer. -/
def tokenize (x : List Char) : List (List Char) := tokenizeAux x []

/-- The dynamic-programming table of `wer_light` (`main5.py` lines 229-237)
as the recurrence the loops fill: `dpF r h i j` is `dp[i][j]`, with border
`dp[i][0] = i`, `dp[0][j] = j` and the three-way minimum over delete, insert
and substitute, with substitution cost 0 exactly on a token match. -/
def dpRowF {α : Type _} [DecidableEq α] (r h : List α) (i : ℕ) (prev : ℕ → ℕ) : ℕ → ℕ
  | 0 => i + 1
  | j + 1 =>
    min (min (prev (j + 1) + 1) (dpRowF r h i prev j + 1))
      (prev j + if r.get? i = h.get? j then 0 else 1)

/-- The table rows, row `i` as a function of the column index. -/
def dpFun {α : Type _} [DecidableEq α] (r h : List α) : ℕ → ℕ → ℕ
  | 0 => fun j => j
  | i + 1 => dpRowF r h i (dpFun r h i)

/-- `dpF r h i j` is the table entry `dp[i][j]`. -/
def dpF {α : Type _} [DecidableEq α] (r h : List α) (i j : ℕ) : ℕ :=
  dpFun r h i j

theorem dpF_zero_left {α : Type _} [DecidableEq α] (r h : List α) (j : ℕ) :
    dpF r h 0 j = j := rfl

theorem dpF_succ_zero {α : Type _} [DecidableEq α] (r h : List α) (i : ℕ) :
    dpF r h (i + 1) 0 = i + 1 := rfl

theorem dpF_succ_succ {α : Type _} [DecidableEq α] (r h : List α) (i j : ℕ) :
    dpF r h (i + 1) (j + 1) =
      min (min (dpF r h i (j + 1) + 1) (dpF r h (i + 1) j + 1))
        (dpF r h i j + if r.get? i = h.get? j then 0 else 1) := rfl

/-- The token-level core of `wer_light` (`main5.py` lines 226-239): given the
reference and hypothesis token lists, return `(ratio, edits, n)`, with the
`n = 0` special case of line 228 and Python's float division modelled
exactly in `ℚ`. -/
def wer_tokens {α : Type _} [DecidableEq α] (r h : List α) : ℚ × ℕ × ℕ :=
  let n := r.length
  let m := h.length
  if n = 0 then ((if m = 0 then 0 else 1), m, n)
  else ((dpF r h n m : ℚ) / (n : ℚ), dpF r h n m, n)

/-- `wer_light` (`main5.py` lines 196-239): normalize and tokenize both
strings, then run the token-level computation. -/
def wer_light (ref hyp : List Char) : ℚ × ℕ × ℕ :=
  wer_tokens (tokenize (norm ref)) (tokenize (norm hyp))

/-- An aligned sequence of single-token edit operations transforming the
first list into the second, together with its total cost: keeping a matching
final token costs 0; substituting, deleting a source token or inserting a
target token costs 1 each.  The minimum cost over all such sequences is the
edit distance. -/
inductive EditPath {α : Type _} : List α → List α → ℕ → Prop
  | nil : EditPath [] [] 0
  | keep (a : α) {xs ys : List α} {n : ℕ} :
      EditPath xs ys n → EditPath (xs ++ [a]) (ys ++ [a]) n
  | subst (a b : α) {xs ys : List α} {n : ℕ} :
      EditPath xs ys n → EditPath (xs ++ [a]) (ys ++ [b]) (n + 1)
  | del (a : α) {xs ys : List α} {n : ℕ} :
      EditPath xs ys n → EditPath (xs ++ [a]) ys (n + 1)
  | ins (b : α) {xs ys : List α} {n : ℕ} :
      EditPath xs ys n → EditPath xs (ys ++ [b]) (n + 1)

section Manifest

variable {K V : Type _} [DecidableEq K]

/-- `unique_items[path] = ref` on an ordered dictionary (`main5.py` line
117): replace the value at an existing key in place, otherwise append the
binding at the end. -/
def odUpsert : List (K × V) → K → V → List (K × V)
  | [], k, v => [(k, v)]
  | p :: rest, k, v =>
    if p.1 = k then (k, v) :: rest else p :: odUpsert rest k v

/-- Lookup of the first binding of a key in an association list. -/
def keyVal : List (K × V) → K → Option V
  | [], _ => none
  | p :: rest, k => if p.1 = k then some p.2 else keyVal rest k

/-- The value of the last pair with the given key, if any. -/
def lastVal : List (K × V) → K → Option V
  | [], _ => none
  | p :: rest, k =>
    match lastVal rest k with
    | some w => some w
    | none => if p.1 = k then some p.2 else none

/-- Keep the first occurrence of each element not already in `seen`, in
order. -/
def firstDedupAux (seen : List K) : List K → List K
  | [] => []
  | k :: rest =>
    if k ∈ seen then firstDedupAux seen rest
    else k :: firstDedupAux (k :: seen) rest

/-- The first-seen-order deduplication of a list. -/
def firstDedup (l : List K) : List K := firstDedupAux [] l

end Manifest

/-- `line.split("\t", 1)` (`main5.py` line 114): split at the first tab;
`none` models the `ValueError` raised when the line has no tab. -/
def splitFirstTab : List Char → Option (List Char × List Char)
  | [] => none
  | c :: rest =>
    if c = '\t' then some ([], rest)
    else (splitFirstTab rest).map (fun pr => (c :: pr.1, pr.2))

/-- One iteration of the manifest-reading loop (`main5.py` lines 109-117):
skip an empty line, skip a line without a tab, otherwise yield the
`(path, reference)` pair. -/
def parseManifestLine (line : List Char) : Option (List Char × List Char) :=
  if line = [] then none else splitFirstTab line

/-- The manifest deduplication of `run_batch` (`main5.py` lines 106-117):
fold the parsed `(path, reference)` pairs into an ordered dictionary keyed
by audio path. -/
def dedupeManifest (lines : List (List Char)) : List (List Char × List Char) :=
  (lines.filterMap parseManifestLine).foldl (fun m pr => odUpsert m pr.1 pr.2) []

/-- Result of the synthesis phase of `run_batch` (`main5.py` lines 81-100):
the phase's exit code (`0` when every utterance succeeded), the 1-based
indices whose TTS invocation was made, and the manifest entries appended,
as `(index, text)` pairs (the written line is `out_{index:02d}.wav\t{text}`,
so the index determines the audio path). -/
structure SynthResult where
  exitCode : ℤ
  invoked : List ℕ
  manifest : List (ℕ × String)
deriving DecidableEq

/-- The synthesis loop of `run_batch` (`main5.py` lines 81-100) from a given
1-based index, with the external TTS executable modelled by the oracle
`exitOf` giving each invocation's exit code: a non-zero exit aborts the
whole phase with that exit code before the manifest line for that index is
written; on success the manifest entry is appended and the loop continues. -/
def synthLoop (exitOf : ℕ → ℤ) : ℕ → List String → SynthResult
  | _, [] => ⟨0, [], []⟩
  | idx, t :: rest =>
    if exitOf idx ≠ 0 then ⟨exitOf idx, [idx], []⟩
    else
      let r := synthLoop exitOf (idx + 1) rest
      ⟨r.exitCode, idx :: r.invoked, (idx, t) :: r.manifest⟩

/-- The synthesis phase over the whole utterance list, starting at index 1
as `enumerate(texts, start=1)` does; its `exitCode` is what `run_batch`
returns (line 96 on failure, and `0` from the tail of the function when the
phase succeeds). -/
def runSynthesis (texts : List String) (exitOf : ℕ → ℤ) : SynthResult :=
  synthLoop exitOf 1 texts

/-- One external process invocation's observable outcome: exit code and
captured standard output. -/
structure ProcResult where
  exitCode : ℤ
  stdout : List Char

/-- The external ASR executable, modelled as oracles from the audio path to
the outcome of the default (batch) invocation and of the `--streaming`
invocation. -/
structure AsrOracle where
  primary : List Char → ProcResult
  streaming : List Char → ProcResult

/-- The body of the transcription loop of `run_batch` for one unique audio
path (`main5.py` lines 121-140): on non-zero primary exit record an empty
hypothesis; otherwise parse the stdout, and if the hypothesis is empty or
starts with the failure sentinel, invoke the streaming retry once, adopting
its parsed hypothesis only when the retry exits zero and that hypothesis is
non-empty.  Returns the recorded hypothesis together with the number of
streaming invocations made. -/
def transcribeItem (oracle : AsrOracle) (path : List Char) : List Char × ℕ :=
  let p := oracle.primary path
  if p.exitCode ≠ 0 then ([], 0)
  else
    let hyp := extract_final_transcription p.stdout
    if hyp = [] || listStartsWith sentinel hyp then
      let s := oracle.streaming path
      if s.exitCode = 0 then
        let hyp2 := extract_final_transcription s.stdout
        (if hyp2 = [] then hyp else hyp2, 1)
      else (hyp, 1)
    else (hyp, 0)

/-- The transcription loop of `run_batch` (`main5.py` lines 119-140): one
TSV row `(path, reference, hypothesis)` written per item, in order. -/
def transcribeAll (oracle : AsrOracle) :
    List (List Char × List Char) → List (List Char × List Char × List Char)
  | [] => []
  | pr :: rest =>
    (pr.1, pr.2, (transcribeItem oracle pr.1).1) :: transcribeAll oracle rest

/-- Separator test from the claim's wording: a line whose trimmed content
consists entirely of `=`/`-` characters and is longer than 5 characters. -/
def sepLine (l : List Char) : Bool :=
  let s := pyStrip l
  !(s = List.nil) && s.all (fun c => c = '=' || c = '-') && decide (s.length > 5)

/-- The transcript parser as the claim describes it, for outputs with no
sentinel line: find the first marker line, take the first non-blank
subsequent line unless it is a separator, and otherwise (or with no marker)
fall back to the last non-blank line of the entire output, trimmed, or the
empty string when there is none. -/
def specExtract (stdout : List Char) : List Char :=
  let lines := pySplitlines stdout
  let fallbackVal : List Char :=
    match lines.reverse.find? (fun l => !(pyStrip l = List.nil)) with
    | some l => pyStrip l
    | none => []
  match lines.findIdx? (fun l => listStartsWith marker (pyStrip l)) with
  | some i =>
    match (lines.drop (i + 1)).find? (fun l => !(pyStrip l = List.nil)) with
    | some l => if sepLine l then fallbackVal else pyStrip l
    | none => fallbackVal
  | none => fallbackVal

theorem scanAfter_eq_some {ls : List (List Char)} {s : List Char}
    (h : scanAfter ls = some s) : ∃ l ∈ ls, s = pyStrip l := by
  induction ls with
  | nil => simp [scanAfter] at h
  | cons a as ih =>
    by_cases hb : pyStrip a = []
    · simp only [scanAfter, hb, if_pos] at h
      obtain ⟨l, hl, he⟩ := ih h
      exact ⟨l, List.mem_cons_of_mem _ hl, he⟩
    · simp only [scanAfter, if_neg hb] at h
      by_cases hsep : ((pyStrip a).all (fun c => c = '=' || c = '-') &&
          decide ((pyStrip a).length > 5)) = true
      · rw [if_pos hsep] at h; exact absurd h (by simp)
      · rw [if_neg hsep] at h
        exact ⟨a, List.mem_cons_self _ _, (Option.some_inj.mp h).symm⟩

theorem findMarkerRest_sub {ls rest : List (List Char)}
    (h : findMarkerRest ls = some rest) : ∀ l ∈ rest, l ∈ ls := by
  induction ls with
  | nil => simp [findMarkerRest] at h
  | cons a as ih =>
    by_cases hm : listStartsWith marker (pyStrip a) = true
    · simp only [findMarkerRest, if_pos hm] at h
      intro l hl
      exact List.mem_cons_of_mem _ (Option.some_inj.mp h ▸ hl)
    · simp only [findMarkerRest, if_neg hm] at h
      intro l hl
      exact List.mem_cons_of_mem _ (ih h l hl)

theorem lastNonBlankRev_cases (ls : List (List Char)) :
    lastNonBlankRev ls = [] ∨ ∃ l ∈ ls, lastNonBlankRev ls = pyStrip l := by
  induction ls with
  | nil => left; rfl
  | cons a as ih =>
    by_cases hb : pyStrip a = []
    · rcases ih with h0 | ⟨l, hl, he⟩
      · left; simpa [lastNonBlankRev, hb] using h0
      · right; exact ⟨l, List.mem_cons_of_mem _ hl, by simpa [lastNonBlankRev, hb] using he⟩
    · right; exact ⟨a, List.mem_cons_self _ _, by simp [lastNonBlankRev, hb]⟩

theorem lastNonBlank_cases (ls : List (List Char)) :
    lastNonBlank ls = [] ∨ ∃ l ∈ ls, lastNonBlank ls = pyStrip l := by
  rcases lastNonBlankRev_cases ls.reverse with h0 | ⟨l, hl, he⟩
  · left; exact h0
  · right; exact ⟨l, List.mem_reverse.mp hl, he⟩

theorem extractRest_cases (lines : List (List Char)) :
    extractRest lines = lastNonBlank lines ∨
    ∃ rest s, findMarkerRest lines = some rest ∧ scanAfter rest = some s ∧
      extractRest lines = s := by
  unfold extractRest
  cases hfm : findMarkerRest lines with
  | none => left; rfl
  | some rest =>
    dsimp only
    cases hscan : scanAfter rest with
    | none => left; rfl
    | some s =>
      right
      exact ⟨rest, s, rfl, hscan, rfl⟩

/-- C10: the transcript parser's result never starts with the failure
sentinel "Batch transcription failed:" — any line that could supply such a
value is caught by the initial sentinel scan, which returns the empty
string — and therefore the retry condition of the transcription loop,
`hypothesis empty or sentinel-prefixed`, is equivalent to `hypothesis
empty`. -/
theorem parser_never_sentinel (stdout : List Char) :
    listStartsWith sentinel (extract_final_transcription stdout) = false ∧
    ((extract_final_transcription stdout = [] ∨
        listStartsWith sentinel (extract_final_transcription stdout) = true) ↔
      extract_final_transcription stdout = []) := by
  have hmain : listStartsWith sentinel (extract_final_transcription stdout) = false := by
    unfold extract_final_transcription
    cases hany : (pySplitlines stdout).any (fun l => listStartsWith sentinel (pyStrip l)) with
    | true => rfl
    | false =>
      have hno : ∀ l ∈ pySplitlines stdout, listStartsWith sentinel (pyStrip l) = false := by
        intro l hl
        by_contra hcon
        have : (pySplitlines stdout).any (fun l => listStartsWith sentinel (pyStrip l)) = true :=
          List.any_eq_true.mpr ⟨l, hl, by simpa using hcon⟩
        rw [hany] at this; exact Bool.false_ne_true this
      rw [if_neg Bool.false_ne_true]
      have hfb : listStartsWith sentinel (lastNonBlank (pySplitlines stdout)) = false := by
        rcases lastNonBlank_cases (pySplitlines stdout) with h0 | ⟨l, hl, he⟩
        · rw [h0]; rfl
        · rw [he]; exact hno l hl
      rcases extractRest_cases (pySplitlines stdout) with h0 | ⟨rest, s, hfm, hscan, he⟩
      · rw [h0]; exact hfb
      · rw [he]
        obtain ⟨l, hl, hsl⟩ := scanAfter_eq_some hscan
        rw [hsl]
        exact hno l (findMarkerRest_sub hfm l hl)
  refine ⟨hmain, ?_⟩
  constructor
  · rintro (h | h)
    · exact h
    · rw [hmain] at h; exact absurd h Bool.false_ne_true
  · intro h; exact Or.inl h

/-- C7 counterexample: an output that contains the literal
"Batch transcription failed: xyz" in the middle of a line (so not at the
start of any line's trimmed form) is not caught by the sentinel scan; the
parser falls through to the last-non-blank-line fallback and returns that
whole line instead of the empty string the claim requires. -/
theorem sentinel_anywhere_counterexample :
    (∃ pre post, String.toList "x Batch transcription failed: xyz" =
        pre ++ String.toList "Batch transcription failed: xyz" ++ post) ∧
    extract_final_transcription (String.toList "x Batch transcription failed: xyz") =
      String.toList "x Batch transcription failed: xyz" ∧
    extract_final_transcription (String.toList "x Batch transcription failed: xyz") ≠ [] := by
  refine ⟨⟨String.toList "x ", [], by decide⟩, by decide, by decide⟩

/-- C7 amended: for any output in which some line's trimmed form starts
with "Batch transcription failed:", the parser returns the empty string,
regardless of the rest of the output and in particular even when a
"Final transcription:" marker line is present. -/
theorem sentinel_line_returns_empty (stdout : List Char)
    (h : (pySplitlines stdout).any (fun l => listStartsWith sentinel (pyStrip l)) = true) :
    extract_final_transcription stdout = [] := by
  unfold extract_final_transcription
  simp [h]

theorem sentinel_line_returns_empty_witness :
    (pySplitlines (String.toList "Final transcription:\nok\nBatch transcription failed: xyz")).any
        (fun l => listStartsWith sentinel (pyStrip l)) = true ∧
    extract_final_transcription
        (String.toList "Final transcription:\nok\nBatch transcription failed: xyz") = [] :=
  ⟨by decide, sentinel_line_returns_empty _ (by decide)⟩

theorem findMarkerRest_eq (lines : List (List Char)) :
    findMarkerRest lines =
      (lines.findIdx? (fun l => listStartsWith marker (pyStrip l))).map
        (fun i => lines.drop (i + 1)) := by
  induction lines with
  | nil => rfl
  | cons a as ih =>
    cases hm : listStartsWith marker (pyStrip a) with
    | true => simp [findMarkerRest, hm]
    | false =>
      simp only [findMarkerRest, hm, Bool.false_eq_true, if_false, List.findIdx?_cons,
        List.findIdx?_start_succ, ih, Option.map_map]
      cases as.findIdx? (fun l => listStartsWith marker (pyStrip l)) with
      | none => rfl
      | some i => simp [Nat.add_comm]

theorem scanAfter_eq (ls : List (List Char)) :
    scanAfter ls =
      match ls.find? (fun l => !(pyStrip l = List.nil)) with
      | some l => if sepLine l then none else some (pyStrip l)
      | none => none := by
  induction ls with
  | nil => rfl
  | cons a as ih =>
    by_cases hb : pyStrip a = []
    · rw [List.find?_cons_of_neg _ (by simp [hb])]
      simpa [scanAfter, hb] using ih
    · rw [List.find?_cons_of_pos _ (by simp [hb])]
      have hsl : sepLine a =
          ((pyStrip a).all (fun c => c = '=' || c = '-') && decide ((pyStrip a).length > 5)) := by
        simp [sepLine, hb]
      cases hsep : ((pyStrip a).all (fun c => c = '=' || c = '-') &&
          decide ((pyStrip a).length > 5)) with
      | true => simp [scanAfter, hb, hsep, hsl]
      | false => simp [scanAfter, hb, hsep, hsl]

theorem lastNonBlankRev_eq (ls : List (List Char)) :
    lastNonBlankRev ls =
      match ls.find? (fun l => !(pyStrip l = List.nil)) with
      | some l => pyStrip l
      | none => [] := by
  induction ls with
  | nil => rfl
  | cons a as ih =>
    by_cases hb : pyStrip a = []
    · rw [List.find?_cons_of_neg _ (by simp [hb])]
      simpa [lastNonBlankRev, hb] using ih
    · rw [List.find?_cons_of_pos _ (by simp [hb])]
      simp [lastNonBlankRev, hb]

/-- C4: on any ASR output with no sentinel line, the parser behaves exactly
as the claim describes: with a marker line present it returns the trimmed
first subsequent non-blank line unless that line is a separator (all `=`/`-`
and longer than 5), in which case — as when the scan is exhausted or no
marker exists — it returns the last non-blank line of the whole output,
trimmed, or the empty string when every line is blank; and the claim's
concrete example evaluates to "hello world". -/
theorem parser_matches_spec (stdout : List Char)
    (hns : ∀ l ∈ pySplitlines stdout, listStartsWith sentinel (pyStrip l) = false) :
    extract_final_transcription stdout = specExtract stdout ∧
    extract_final_transcription
        (String.toList "Final transcription:\n\n\nhello world\n======\n") =
      String.toList "hello world" := by
  constructor
  · have hany : (pySplitlines stdout).any (fun l => listStartsWith sentinel (pyStrip l)) = false := by
      rw [List.any_eq_false]
      intro l hl
      simp [hns l hl]
    unfold extract_final_transcription
    rw [if_neg (by rw [hany]; exact Bool.false_ne_true)]
    unfold extractRest
    simp only [specExtract]
    rw [findMarkerRest_eq]
    cases hidx : (pySplitlines stdout).findIdx? (fun l => listStartsWith marker (pyStrip l)) with
    | none =>
      dsimp only [Option.map_none']
      rw [lastNonBlank, lastNonBlankRev_eq]
    | some i =>
      dsimp only [Option.map_some']
      rw [scanAfter_eq]
      cases hfind : ((pySplitlines stdout).drop (i + 1)).find? (fun l => !(pyStrip l = List.nil)) with
      | none =>
        dsimp only
        rw [lastNonBlank, lastNonBlankRev_eq]
      | some l =>
        dsimp only
        cases hsep : sepLine l with
        | true =>
          simp only [hsep, if_true]
          rw [lastNonBlank, lastNonBlankRev_eq]
        | false =>
          simp only [hsep, Bool.false_eq_true, if_false]
  · decide

theorem parser_matches_spec_witness :
    (∀ l ∈ pySplitlines (String.toList "noise\nFinal transcription:\n\n  hi there \nrest"),
        listStartsWith sentinel (pyStrip l) = false) ∧
    (extract_final_transcription (String.toList "noise\nFinal transcription:\n\n  hi there \nrest") =
        specExtract (String.toList "noise\nFinal transcription:\n\n  hi there \nrest") ∧
      extract_final_transcription
          (String.toList "Final transcription:\n\n\nhello world\n======\n") =
        String.toList "hello world") :=
  ⟨by decide, parser_matches_spec _ (by decide)⟩

theorem tokenChar_not_space {c : Char} (h : tokenChar c = true) : pyIsSpace c = false := by
  simp only [tokenChar, Bool.or_eq_true, decide_eq_true_eq] at h
  rcases h with h | h
  · simp only [pyIsAlnum, Bool.or_eq_true, Bool.and_eq_true, decide_eq_true_eq] at h
    simp only [pyIsSpace, Bool.or_eq_false_iff, decide_eq_false_iff_not]
    omega
  · subst h; rfl

theorem tokenizeAux_props (x : List Char) :
    ∀ cur, (∀ c ∈ cur, tokenChar c = true) →
      ∀ t ∈ tokenizeAux x cur, t ≠ [] ∧ ∀ c ∈ t, tokenChar c = true := by
  induction x with
  | nil =>
    intro cur hcur t ht
    by_cases h : cur = []
    · simp [tokenizeAux, h] at ht
    · simp only [tokenizeAux, if_neg h, List.mem_singleton] at ht
      subst ht
      refine ⟨by simpa using h, ?_⟩
      intro c hc
      exact hcur c (List.mem_reverse.mp hc)
  | cons c rest ih =>
    intro cur hcur t ht
    by_cases hc : tokenChar c = true
    · refine ih (c :: cur) ?_ t (by simpa only [tokenizeAux, if_pos hc] using ht)
      intro d hd
      rcases List.mem_cons.mp hd with rfl | hd
      · exact hc
      · exact hcur d hd
    · by_cases hcur0 : cur = []
      · exact ih [] (by simp) t
          (by simpa only [tokenizeAux, if_neg hc, hcur0, if_pos] using ht)
      · rw [tokenizeAux] at ht
        rw [if_neg hc, if_neg hcur0] at ht
        rcases List.mem_cons.mp ht with rfl | ht
        · refine ⟨by simpa using hcur0, ?_⟩
          intro d hd
          exact hcur d (List.mem_reverse.mp hd)
        · exact ih [] (by simp) t ht

/-- C9: every token produced by the tokenizer is non-empty and consists
only of alphanumeric-or-apostrophe characters, hence contains no whitespace
character; the empty input produces no tokens. -/
theorem tokenize_tokens_wf (x : List Char) :
    (∀ t ∈ tokenize x, t ≠ [] ∧ ∀ c ∈ t, tokenChar c = true ∧ pyIsSpace c = false) ∧
    tokenize [] = [] := by
  refine ⟨?_, rfl⟩
  intro t ht
  obtain ⟨h1, h2⟩ := tokenizeAux_props x [] (by simp) t ht
  exact ⟨h1, fun c hc => ⟨h2 c hc, tokenChar_not_space (h2 c hc)⟩⟩

theorem tokenize_tokens_wf_witness :
    String.toList "hello" ≠ [] ∧
    ∀ c ∈ String.toList "hello", tokenChar c = true ∧ pyIsSpace c = false :=
  (tokenize_tokens_wf (String.toList "hello, world")).1 (String.toList "hello") (by decide)

theorem synthLoop_fail (d : ℕ) :
    ∀ (texts : List String) (s : ℕ) (exitOf : ℕ → ℤ) (c : ℤ),
      d < texts.length →
      (∀ j, s ≤ j → j < s + d → exitOf j = 0) →
      exitOf (s + d) = c → c ≠ 0 →
      synthLoop exitOf s texts =
        ⟨c, List.range' s (d + 1), (List.range' s d).zip (texts.take d)⟩ := by
  induction d with
  | zero =>
    intro texts s exitOf c hlen hprev hfail hc
    cases texts with
    | nil => simp at hlen
    | cons t rest =>
      rw [Nat.add_zero] at hfail
      have hne : exitOf s ≠ 0 := by rw [hfail]; exact hc
      simp [synthLoop, hne, hfail, hc]
  | succ d ih =>
    intro texts s exitOf c hlen hprev hfail hc
    cases texts with
    | nil => simp at hlen
    | cons t rest =>
      have h0 : exitOf s = 0 := hprev s le_rfl (by omega)
      have hne : ¬(exitOf s ≠ 0) := by simp [h0]
      have hfail' : exitOf (s + 1 + d) = c := by
        have : s + 1 + d = s + (d + 1) := by omega
        rw [this]; exact hfail
      have hrec := ih rest (s + 1) exitOf c (by simpa using hlen)
        (fun j hj1 hj2 => hprev j (by omega) (by omega)) hfail' hc
      simp only [synthLoop, if_neg hne, hrec]
      simp [List.range'_succ]

/-- C2: if every synthesis invocation before 1-based index `k` exits zero
and the invocation at index `k` exits with a non-zero code `c`, then the
synthesis phase stops there: exactly the indices `1..k` are invoked (none
after `k`), exactly the manifest entries for indices `1..k-1` are written
(none for `k` or later), and the run's exit code is `c`. -/
theorem synthesis_fail_fast (texts : List String) (exitOf : ℕ → ℤ) (k : ℕ) (c : ℤ)
    (hk1 : 1 ≤ k) (hk : k ≤ texts.length)
    (hprev : ∀ j ∈ List.range' 1 (k - 1), exitOf j = 0)
    (hfail : exitOf k = c) (hc : c ≠ 0) :
    runSynthesis texts exitOf =
      ⟨c, List.range' 1 k, (List.range' 1 (k - 1)).zip (texts.take (k - 1))⟩ ∧
    (∀ j ∈ (runSynthesis texts exitOf).invoked, j ≤ k) ∧
    (∀ e ∈ (runSynthesis texts exitOf).manifest, e.1 < k) := by
  have hprev' : ∀ j, 1 ≤ j → j < 1 + (k - 1) → exitOf j = 0 := by
    intro j hj1 hj2
    exact hprev j (List.mem_range'.mpr ⟨j - 1, by omega, by omega⟩)
  have hfail' : exitOf (1 + (k - 1)) = c := by
    have : 1 + (k - 1) = k := by omega
    rw [this]; exact hfail
  have hd := synthLoop_fail (k - 1) texts 1 exitOf c (by omega) hprev' hfail' hc
  have hke : k - 1 + 1 = k := by omega
  rw [hke] at hd
  have hmain : runSynthesis texts exitOf =
      ⟨c, List.range' 1 k, (List.range' 1 (k - 1)).zip (texts.take (k - 1))⟩ := hd
  refine ⟨hmain, ?_, ?_⟩
  · intro j hj
    rw [hmain] at hj
    obtain ⟨i, hi, rfl⟩ := List.mem_range'.mp hj
    omega
  · intro e he
    rw [hmain] at he
    have h1 := (List.of_mem_zip he).1
    obtain ⟨i, hi, he1⟩ := List.mem_range'.mp h1
    omega

theorem synthesis_fail_fast_witness :
    runSynthesis ["t1", "t2", "t3", "t4", "t5"] (fun j => if j = 3 then 7 else 0) =
      ⟨7, List.range' 1 3,
        (List.range' 1 2).zip (["t1", "t2", "t3", "t4", "t5"].take 2)⟩ ∧
    (∀ j ∈ (runSynthesis ["t1", "t2", "t3", "t4", "t5"]
        (fun j => if j = 3 then 7 else 0)).invoked, j ≤ 3) ∧
    (∀ e ∈ (runSynthesis ["t1", "t2", "t3", "t4", "t5"]
        (fun j => if j = 3 then 7 else 0)).manifest, e.1 < 3) :=
  synthesis_fail_fast ["t1", "t2", "t3", "t4", "t5"] (fun j => if j = 3 then 7 else 0) 3 7
    (by decide) (by decide) (by decide) (by decide) (by decide)

theorem transcribeItem_primary_fail {oracle : AsrOracle} {path : List Char}
    (h : (oracle.primary path).exitCode ≠ 0) :
    transcribeItem oracle path = ([], 0) := by
  simp [transcribeItem, h]

/-- C5: when the primary invocation exits zero, the streaming retry is
invoked exactly once if and only if the parsed hypothesis is empty or
starts with the failure sentinel; in that case the recorded hypothesis is
the retry's parsed hypothesis exactly when the retry exits zero and that
hypothesis is non-empty, and otherwise the original hypothesis is kept (the
retry's failure is swallowed); when the parsed hypothesis is good, no retry
happens and it is recorded as is. -/
theorem transcription_retry_policy (oracle : AsrOracle) (path : List Char)
    (hp : (oracle.primary path).exitCode = 0) :
    ((extract_final_transcription (oracle.primary path).stdout = [] ∨
        listStartsWith sentinel (extract_final_transcription (oracle.primary path).stdout) = true) →
      (transcribeItem oracle path).2 = 1 ∧
      (transcribeItem oracle path).1 =
        (if (oracle.streaming path).exitCode = 0 ∧
            extract_final_transcription (oracle.streaming path).stdout ≠ []
          then extract_final_transcription (oracle.streaming path).stdout
          else extract_final_transcription (oracle.primary path).stdout)) ∧
    (¬(extract_final_transcription (oracle.primary path).stdout = [] ∨
        listStartsWith sentinel (extract_final_transcription (oracle.primary path).stdout) = true) →
      (transcribeItem oracle path).2 = 0 ∧
      (transcribeItem oracle path).1 =
        extract_final_transcription (oracle.primary path).stdout) := by
  constructor
  · intro hbad
    by_cases hs0 : (oracle.streaming path).exitCode = 0
    · by_cases h2 : extract_final_transcription (oracle.streaming path).stdout = []
      · rcases hbad with h | h
        · simp [transcribeItem, hp, h, hs0, h2]
        · simp [transcribeItem, hp, h, hs0, h2]
      · rcases hbad with h | h
        · simp [transcribeItem, hp, h, hs0, h2]
        · simp [transcribeItem, hp, h, hs0, h2]
    · rcases hbad with h | h
      · simp [transcribeItem, hp, h, hs0]
      · simp [transcribeItem, hp, h, hs0]
  · intro hgood
    push_neg at hgood
    obtain ⟨h1, h2⟩ := hgood
    have h2' : listStartsWith sentinel (extract_final_transcription (oracle.primary path).stdout)
        = false := by
      cases hb : listStartsWith sentinel (extract_final_transcription (oracle.primary path).stdout)
      · rfl
      · exact absurd hb h2
    simp [transcribeItem, hp, h1, h2']

/-- A concrete ASR oracle used to instantiate the retry-policy theorem: the
primary invocation succeeds with empty output, the streaming retry succeeds
with a parseable transcription. -/
def demoOracle : AsrOracle :=
  ⟨fun _ => ⟨0, []⟩, fun _ => ⟨0, String.toList "Final transcription:\nok"⟩⟩

/-- A concrete audio path for instantiating the transcription theorems. -/
def demoPath : List Char := String.toList "p.wav"

theorem transcription_retry_policy_witness :
    (transcribeItem demoOracle demoPath).2 = 1 ∧
    (transcribeItem demoOracle demoPath).1 =
      (if (demoOracle.streaming demoPath).exitCode = 0 ∧
          extract_final_transcription (demoOracle.streaming demoPath).stdout ≠ []
        then extract_final_transcription (demoOracle.streaming demoPath).stdout
        else extract_final_transcription (demoOracle.primary demoPath).stdout) :=
  (transcription_retry_policy demoOracle demoPath (by decide)).1 (Or.inl (by decide))

theorem transcribeAll_length (oracle : AsrOracle) (items : List (List Char × List Char)) :
    (transcribeAll oracle items).length = items.length := by
  induction items with
  | nil => rfl
  | cons pr rest ih => simp [transcribeAll, ih]

theorem transcribeAll_getD (oracle : AsrOracle) :
    ∀ (items : List (List Char × List Char)) (i : ℕ), i < items.length →
      (transcribeAll oracle items).getD i ([], [], []) =
        ((items.getD i ([], [])).1, (items.getD i ([], [])).2,
          (transcribeItem oracle (items.getD i ([], [])).1).1) := by
  intro items
  induction items with
  | nil => intro i hi; simp at hi
  | cons pr rest ih =>
    intro i hi
    cases i with
    | zero => simp [transcribeAll]
    | succ n =>
      simp only [transcribeAll, List.getD_cons_succ]
      exact ih n (by simpa using hi)

/-- C6: the transcription loop writes exactly one TSV row per manifest
item, in order, carrying that item's audio path and reference text, whatever
the invocations' outcomes; and when the primary invocation for an item's
path exits non-zero, the hypothesis recorded in that item's row is empty
(the loop continues with the remaining items, which still get their rows). -/
theorem transcription_rows (oracle : AsrOracle) (items : List (List Char × List Char)) :
    (transcribeAll oracle items).length = items.length ∧
    (transcribeAll oracle items).map (fun row => (row.1, row.2.1)) = items ∧
    ∀ i, i < items.length →
      (oracle.primary (items.getD i ([], [])).1).exitCode ≠ 0 →
      ((transcribeAll oracle items).getD i ([], [], [])).2.2 = [] := by
  refine ⟨transcribeAll_length oracle items, ?_, ?_⟩
  · induction items with
    | nil => rfl
    | cons pr rest ih => simp [transcribeAll, ih]
  · intro i hi hfailed
    rw [transcribeAll_getD oracle items i hi, transcribeItem_primary_fail hfailed]

theorem transcription_rows_witness :
    (transcribeAll (AsrOracle.mk (fun _ => ⟨2, []⟩) (fun _ => ⟨0, []⟩))
        [(String.toList "a.wav", String.toList "ra"),
         (String.toList "b.wav", String.toList "rb")]).length = 2 ∧
    ((transcribeAll (AsrOracle.mk (fun _ => ⟨2, []⟩) (fun _ => ⟨0, []⟩))
        [(String.toList "a.wav", String.toList "ra"),
         (String.toList "b.wav", String.toList "rb")]).getD 0 ([], [], [])).2.2 = [] := by
  have h := transcription_rows (AsrOracle.mk (fun _ => ⟨2, []⟩) (fun _ => ⟨0, []⟩))
    [(String.toList "a.wav", String.toList "ra"), (String.toList "b.wav", String.toList "rb")]
  exact ⟨h.1, h.2.2 0 (by decide) (by decide)⟩

section ManifestLemmas

variable {K V : Type _} [DecidableEq K]

theorem odUpsert_keys_mem (m : List (K × V)) (k : K) (v : V) (hk : k ∈ m.map Prod.fst) :
    (odUpsert m k v).map Prod.fst = m.map Prod.fst := by
  induction m with
  | nil => simp at hk
  | cons p rest ih =>
    by_cases h : p.1 = k
    · simp [odUpsert, h]
    · have hm : k ∈ rest.map Prod.fst := by
        rcases List.mem_map.mp hk with ⟨q, hq, he⟩
        rcases List.mem_cons.mp hq with rfl | hq2
        · exact absurd he h
        · exact List.mem_map.mpr ⟨q, hq2, he⟩
      simp [odUpsert, h, ih hm]

theorem odUpsert_keys_not_mem (m : List (K × V)) (k : K) (v : V)
    (hk : k ∉ m.map Prod.fst) :
    (odUpsert m k v).map Prod.fst = m.map Prod.fst ++ [k] := by
  induction m with
  | nil => simp [odUpsert]
  | cons p rest ih =>
    have h : ¬(p.1 = k) := fun he => hk (by simp [he])
    have hr : k ∉ rest.map Prod.fst := fun hm => hk (by simp [hm])
    simp [odUpsert, h, ih hr]

theorem odUpsert_keys_nodup (m : List (K × V)) (k : K) (v : V)
    (h : (m.map Prod.fst).Nodup) : ((odUpsert m k v).map Prod.fst).Nodup := by
  by_cases hk : k ∈ m.map Prod.fst
  · rw [odUpsert_keys_mem m k v hk]; exact h
  · rw [odUpsert_keys_not_mem m k v hk]
    simp [List.nodup_append, h, hk]

theorem keyVal_odUpsert_self (m : List (K × V)) (k : K) (v : V) :
    keyVal (odUpsert m k v) k = some v := by
  induction m with
  | nil => simp [odUpsert, keyVal]
  | cons p rest ih =>
    by_cases h : p.1 = k
    · simp [odUpsert, h, keyVal]
    · simp [odUpsert, h, keyVal, ih]

theorem keyVal_odUpsert_other (m : List (K × V)) {k q : K} (v : V) (hne : q ≠ k) :
    keyVal (odUpsert m k v) q = keyVal m q := by
  induction m with
  | nil => simp [odUpsert, keyVal, Ne.symm hne]
  | cons p rest ih =>
    by_cases h : p.1 = k
    · have hpq : ¬(p.1 = q) := by rw [h]; exact Ne.symm hne
      simp [odUpsert, h, keyVal, Ne.symm hne, hpq]
    · simp [odUpsert, h, keyVal, ih]

theorem firstDedupAux_congr (s₁ s₂ : List K) (l : List K)
    (h : ∀ a, a ∈ s₁ ↔ a ∈ s₂) : firstDedupAux s₁ l = firstDedupAux s₂ l := by
  induction l generalizing s₁ s₂ with
  | nil => rfl
  | cons a rest ih =>
    by_cases ha : a ∈ s₁
    · simp [firstDedupAux, ha, (h a).mp ha, ih _ _ h]
    · have ha2 : a ∉ s₂ := fun hx => ha ((h a).mpr hx)
      simp only [firstDedupAux, if_neg ha, if_neg ha2]
      rw [ih (a :: s₁) (a :: s₂) (by intro b; simp [h b])]

theorem foldl_upsert_keys (ps : List (K × V)) :
    ∀ m : List (K × V),
      (ps.foldl (fun m pr => odUpsert m pr.1 pr.2) m).map Prod.fst =
        m.map Prod.fst ++ firstDedupAux (m.map Prod.fst) (ps.map Prod.fst) := by
  induction ps with
  | nil => intro m; simp [firstDedupAux]
  | cons pr rest ih =>
    intro m
    by_cases hk : pr.1 ∈ m.map Prod.fst
    · rw [List.foldl_cons, ih (odUpsert m pr.1 pr.2), odUpsert_keys_mem m pr.1 pr.2 hk]
      simp [firstDedupAux, hk]
    · rw [List.foldl_cons, ih (odUpsert m pr.1 pr.2), odUpsert_keys_not_mem m pr.1 pr.2 hk]
      simp only [List.map_cons, firstDedupAux, hk, if_neg, List.append_assoc,
        List.singleton_append]
      rw [firstDedupAux_congr (m.map Prod.fst ++ [pr.1]) (pr.1 :: m.map Prod.fst)
        (rest.map Prod.fst) (by intro a; simp [or_comm])]
      simp

theorem foldl_upsert_nodup (ps : List (K × V)) :
    ∀ m : List (K × V), (m.map Prod.fst).Nodup →
      ((ps.foldl (fun m pr => odUpsert m pr.1 pr.2) m).map Prod.fst).Nodup := by
  induction ps with
  | nil => intro m h; exact h
  | cons pr rest ih =>
    intro m h
    exact ih (odUpsert m pr.1 pr.2) (odUpsert_keys_nodup m pr.1 pr.2 h)

theorem foldl_upsert_keyVal (ps : List (K × V)) :
    ∀ (m : List (K × V)) (k : K),
      keyVal (ps.foldl (fun m pr => odUpsert m pr.1 pr.2) m) k =
        match lastVal ps k with
        | some w => some w
        | none => keyVal m k := by
  induction ps with
  | nil => intro m k; rfl
  | cons pr rest ih =>
    intro m k
    rw [List.foldl_cons, ih (odUpsert m pr.1 pr.2) k]
    cases hl : lastVal rest k with
    | some w => simp [lastVal, hl]
    | none =>
      by_cases hk : pr.1 = k
      · subst hk
        simp [lastVal, hl, keyVal_odUpsert_self]
      · simp [lastVal, hl, hk, keyVal_odUpsert_other m pr.2 (fun he => hk he.symm)]

end ManifestLemmas

/-- C1 counterexample: two manifest lines with the same audio path "a" and
different reference texts "X" (first-seen) then "Y": the deduplication
keeps the LAST-seen reference text "Y", not the first-seen "X" the claim
requires. -/
theorem manifest_dedupe_counterexample :
    dedupeManifest [String.toList "a\tX", String.toList "a\tY"] =
      [(String.toList "a", String.toList "Y")] ∧
    keyVal (dedupeManifest [String.toList "a\tX", String.toList "a\tY"])
        (String.toList "a") ≠ some (String.toList "X") :=
  ⟨by decide, by decide⟩

/-- C1 amended: for every manifest, the deduplication step yields exactly
one entry per distinct parsed audio path (the key list has no duplicates
and is the first-seen-order deduplication of the parsed paths), and the
reference text retained for each path is the last-seen reference text for
that path. -/
theorem manifest_dedupe_spec (lines : List (List Char)) :
    ((dedupeManifest lines).map Prod.fst).Nodup ∧
    (dedupeManifest lines).map Prod.fst =
      firstDedup ((lines.filterMap parseManifestLine).map Prod.fst) ∧
    ∀ k, keyVal (dedupeManifest lines) k =
      lastVal (lines.filterMap parseManifestLine) k := by
  unfold dedupeManifest firstDedup
  refine ⟨foldl_upsert_nodup _ [] (by simp), ?_, ?_⟩
  · simpa using foldl_upsert_keys (lines.filterMap parseManifestLine) []
  · intro k
    rw [foldl_upsert_keyVal]
    cases lastVal (lines.filterMap parseManifestLine) k <;> rfl

theorem toNat_ofNat_valid {n : ℕ} (h : n.isValidChar) : (Char.ofNat n).toNat = n := by
  simp [Char.ofNat, h, Char.ofNatAux, Char.toNat, UInt32.toNat, BitVec.toNat_ofNatLt]

theorem pyLower_idem (c : Char) : pyLower (pyLower c) = pyLower c := by
  unfold pyLower
  by_cases h : (65 ≤ c.toNat && c.toNat ≤ 90) = true
  · rw [if_pos h]
    have hb : 65 ≤ c.toNat ∧ c.toNat ≤ 90 := by
      simpa [Bool.and_eq_true, decide_eq_true_eq] using h
    have hv : (Char.ofNat (c.toNat + 32)).toNat = c.toNat + 32 :=
      toNat_ofNat_valid (Or.inl (by omega))
    rw [if_neg]
    rw [hv]
    simp only [Bool.and_eq_true, decide_eq_true_eq, not_and]
    omega
  · rw [if_neg h, if_neg h]

theorem mem_replaceChar_lower (c₀ : Char) {d : Char}
    (hd : d ∈ replaceChar (pyLower c₀)) :
    pyLower d = d ∧ replaceChar d = [d] := by
  set c := pyLower c₀ with hc
  unfold replaceChar at hd
  split_ifs at hd with h1 h2 h3 h4 h5 h6
  · rw [List.mem_singleton] at hd; subst hd; exact ⟨by decide, by decide⟩
  · rw [List.mem_singleton] at hd; subst hd; exact ⟨by decide, by decide⟩
  · rw [List.mem_singleton] at hd; subst hd; exact ⟨by decide, by decide⟩
  · rw [List.mem_singleton] at hd; subst hd; exact ⟨by decide, by decide⟩
  · rw [List.mem_singleton] at hd; subst hd; exact ⟨by decide, by decide⟩
  · rcases List.mem_cons.mp hd with rfl | hd2
    · exact ⟨by decide, by decide⟩
    · rcases List.mem_cons.mp hd2 with rfl | hd3
      · exact ⟨by decide, by decide⟩
      · rw [List.mem_singleton] at hd3; subst hd3; exact ⟨by decide, by decide⟩
  · rw [List.mem_singleton] at hd
    subst hd
    refine ⟨by rw [hc]; exact pyLower_idem c₀, ?_⟩
    unfold replaceChar
    rw [if_neg h1, if_neg h2, if_neg h3, if_neg h4, if_neg h5, if_neg h6]

theorem mem_y_fixed {x : List Char} {d : Char}
    (hd : d ∈ (x.map pyLower).flatMap replaceChar) :
    pyLower d = d ∧ replaceChar d = [d] := by
  obtain ⟨c, hcmem, hdc⟩ := List.mem_flatMap.mp hd
  obtain ⟨c₀, hc₀, rfl⟩ := List.mem_map.mp hcmem
  exact mem_replaceChar_lower c₀ hdc

theorem pySplitAux_words (s : List Char) :
    ∀ cur, (∀ c ∈ cur, pyIsSpace c = false) →
      ∀ w ∈ pySplitAux s cur,
        w ≠ [] ∧ ∀ c ∈ w, pyIsSpace c = false ∧ (c ∈ cur ∨ c ∈ s) := by
  induction s with
  | nil =>
    intro cur hcur w hw
    by_cases h : cur = []
    · simp [pySplitAux, h] at hw
    · simp only [pySplitAux, if_neg h, List.mem_singleton] at hw
      subst hw
      refine ⟨by simpa using h, fun c hc => ?_⟩
      have hcc := List.mem_reverse.mp hc
      exact ⟨hcur c hcc, Or.inl hcc⟩
  | cons a rest ih =>
    intro cur hcur w hw
    cases ha : pyIsSpace a with
    | true =>
      rw [pySplitAux, if_pos ha] at hw
      by_cases h0 : cur = []
      · rw [if_pos h0] at hw
        obtain ⟨h1, h2⟩ := ih [] (by simp) w hw
        refine ⟨h1, fun c hc => ⟨(h2 c hc).1, Or.inr ?_⟩⟩
        rcases (h2 c hc).2 with hcm | hcm
        · simp at hcm
        · exact List.mem_cons_of_mem _ hcm
      · rw [if_neg h0] at hw
        rcases List.mem_cons.mp hw with rfl | hw2
        · refine ⟨by simpa using h0, fun c hc => ?_⟩
          have hcc := List.mem_reverse.mp hc
          exact ⟨hcur c hcc, Or.inl hcc⟩
        · obtain ⟨h1, h2⟩ := ih [] (by simp) w hw2
          refine ⟨h1, fun c hc => ⟨(h2 c hc).1, Or.inr ?_⟩⟩
          rcases (h2 c hc).2 with hcm | hcm
          · simp at hcm
          · exact List.mem_cons_of_mem _ hcm
    | false =>
      rw [pySplitAux, if_neg (by rw [ha]; exact Bool.false_ne_true)] at hw
      have hcur' : ∀ c ∈ a :: cur, pyIsSpace c = false := by
        intro c hc
        rcases List.mem_cons.mp hc with rfl | hc2
        · exact ha
        · exact hcur c hc2
      obtain ⟨h1, h2⟩ := ih (a :: cur) hcur' w hw
      refine ⟨h1, fun c hc => ?_⟩
      obtain ⟨hs, hm⟩ := h2 c hc
      refine ⟨hs, ?_⟩
      rcases hm with hm | hm
      · rcases List.mem_cons.mp hm with rfl | hm2
        · exact Or.inr (List.mem_cons_self _ _)
        · exact Or.inl hm2
      · exact Or.inr (List.mem_cons_of_mem _ hm)

theorem mem_joinSp {ws : List (List Char)} {c : Char} (hc : c ∈ joinSp ws) :
    c = ' ' ∨ ∃ w ∈ ws, c ∈ w := by
  induction ws with
  | nil => simp [joinSp] at hc
  | cons w rest ih =>
    cases rest with
    | nil => exact Or.inr ⟨w, List.mem_cons_self _ _, by simpa [joinSp] using hc⟩
    | cons w2 rest2 =>
      have hc' : c ∈ w ∨ c = ' ' ∨ c ∈ joinSp (w2 :: rest2) := by simpa [joinSp] using hc
      rcases hc' with h | h | h
      · exact Or.inr ⟨w, List.mem_cons_self _ _, h⟩
      · exact Or.inl h
      · rcases ih h with h3 | ⟨w3, hw3, hcw3⟩
        · exact Or.inl h3
        · exact Or.inr ⟨w3, List.mem_cons_of_mem _ hw3, hcw3⟩

theorem map_eq_self_of_fixed {f : Char → Char} {s : List Char}
    (h : ∀ c ∈ s, f c = c) : s.map f = s := by
  induction s with
  | nil => rfl
  | cons a rest ih =>
    rw [List.map_cons, h a (List.mem_cons_self _ _),
      ih (fun c hc => h c (List.mem_cons_of_mem _ hc))]

theorem flatMap_eq_self_of_fixed {f : Char → List Char} {s : List Char}
    (h : ∀ c ∈ s, f c = [c]) : s.flatMap f = s := by
  induction s with
  | nil => rfl
  | cons a rest ih =>
    rw [List.flatMap_cons, h a (List.mem_cons_self _ _),
      ih (fun c hc => h c (List.mem_cons_of_mem _ hc))]
    rfl

theorem pySplitAux_word_run (w : List Char) (hw : ∀ c ∈ w, pyIsSpace c = false) :
    ∀ (s cur : List Char), pySplitAux (w ++ s) cur = pySplitAux s (w.reverse ++ cur) := by
  induction w with
  | nil => intro s cur; simp
  | cons c rest ih =>
    intro s cur
    have hc : pyIsSpace c = false := hw c (List.mem_cons_self _ _)
    rw [List.cons_append, pySplitAux, if_neg (by rw [hc]; exact Bool.false_ne_true)]
    rw [ih (fun d hd => hw d (List.mem_cons_of_mem _ hd)) s (c :: cur)]
    rw [List.reverse_cons, List.append_assoc, List.singleton_append]

theorem pySplit_joinSp (ws : List (List Char))
    (hws : ∀ w ∈ ws, w ≠ [] ∧ ∀ c ∈ w, pyIsSpace c = false) :
    pySplit (joinSp ws) = ws := by
  induction ws with
  | nil => rfl
  | cons w rest ih =>
    obtain ⟨hw0, hwc⟩ := hws w (List.mem_cons_self _ _)
    cases rest with
    | nil =>
      show pySplit (joinSp [w]) = [w]
      have hj : joinSp [w] = w := rfl
      have hrun := pySplitAux_word_run w hwc [] []
      rw [List.append_nil] at hrun
      unfold pySplit
      rw [hj, hrun]
      simp only [pySplitAux]
      rw [if_neg (by simpa using hw0)]
      rw [List.append_nil, List.reverse_reverse]
    | cons w2 rest2 =>
      have hj : joinSp (w :: w2 :: rest2) = w ++ ' ' :: joinSp (w2 :: rest2) := rfl
      unfold pySplit
      rw [hj, pySplitAux_word_run w hwc (' ' :: joinSp (w2 :: rest2)) []]
      rw [pySplitAux, if_pos (by decide)]
      rw [if_neg (by simpa using hw0)]
      rw [List.append_nil, List.reverse_reverse]
      exact congrArg (w :: ·) (ih (fun v hv => hws v (List.mem_cons_of_mem _ hv)))

/-- C8: the text normalizer of `wer_light` is idempotent: normalizing an
already-normalized string changes nothing, because every character the
normalizer emits is fixed by lowercasing and by the punctuation
replacements, and re-splitting the space-joined words recovers exactly the
same words. -/
theorem norm_idempotent (x : List Char) : norm (norm x) = norm x := by
  have hwords : ∀ w ∈ pySplit ((x.map pyLower).flatMap replaceChar),
      w ≠ [] ∧ ∀ c ∈ w, pyIsSpace c = false := by
    intro w hw
    obtain ⟨h1, h2⟩ := pySplitAux_words _ [] (by simp) w hw
    exact ⟨h1, fun c hc => (h2 c hc).1⟩
  have hchars : ∀ c ∈ norm x, pyLower c = c ∧ replaceChar c = [c] := by
    intro c hc
    rcases mem_joinSp hc with rfl | ⟨w, hw, hcw⟩
    · exact ⟨by decide, by decide⟩
    · obtain ⟨h1, h2⟩ := pySplitAux_words _ [] (by simp) w hw
      rcases (h2 c hcw).2 with hm | hm
      · simp at hm
      · exact mem_y_fixed hm
  have hy : ((norm x).map pyLower).flatMap replaceChar = norm x := by
    rw [map_eq_self_of_fixed (fun c hc => (hchars c hc).1)]
    exact flatMap_eq_self_of_fixed (fun c hc => (hchars c hc).2)
  show joinSp (pySplit (((norm x).map pyLower).flatMap replaceChar)) = norm x
  rw [hy]
  conv_lhs =>
    rw [show norm x = joinSp (pySplit ((x.map pyLower).flatMap replaceChar)) from rfl]
  rw [pySplit_joinSp _ hwords]
  exact rfl

theorem take_eq_of_take_succ {α : Type _} {l l' : List α} {i : ℕ}
    (h : l.take (i + 1) = l'.take (i + 1)) : l.take i = l'.take i := by
  have h2 := congrArg (fun t => List.take i t) h
  simpa [List.take_take, Nat.min_eq_left (Nat.le_succ i)] using h2

theorem get?_eq_of_take_succ {α : Type _} {l l' : List α} {i : ℕ}
    (h : l.take (i + 1) = l'.take (i + 1)) : l.get? i = l'.get? i := by
  have h2 := congrArg (fun t => t.get? i) h
  simpa [List.get?_take (Nat.lt_succ_self i)] using h2

theorem dpF_zero_right {α : Type _} [DecidableEq α] (r h : List α) (i : ℕ) :
    dpF r h i 0 = i := by
  cases i <;> rfl

theorem min3_cases (a b c : ℕ) :
    min (min a b) c = a ∨ min (min a b) c = b ∨ min (min a b) c = c := by
  omega

theorem dpF_congr_take {α : Type _} [DecidableEq α] :
    ∀ (i j : ℕ) (r r' h h' : List α), r.take i = r'.take i → h.take j = h'.take j →
      dpF r h i j = dpF r' h' i j := by
  intro i
  induction i with
  | zero => intro j r r' h h' _ _; rfl
  | succ i ihi =>
    intro j
    induction j with
    | zero => intro r r' h h' _ _; rfl
    | succ j ihj =>
      intro r r' h h' hr hh
      rw [dpF_succ_succ, dpF_succ_succ]
      rw [ihi (j + 1) r r' h h' (take_eq_of_take_succ hr) hh]
      rw [ihj r r' h h' hr (take_eq_of_take_succ hh)]
      rw [ihi j r r' h h' (take_eq_of_take_succ hr) (take_eq_of_take_succ hh)]
      rw [get?_eq_of_take_succ hr, get?_eq_of_take_succ hh]

theorem editPath_dpF {α : Type _} [DecidableEq α] (r h : List α) :
    ∀ i j, i ≤ r.length → j ≤ h.length →
      EditPath (h.take j) (r.take i) (dpF r h i j) := by
  intro i
  induction i with
  | zero =>
    intro j
    induction j with
    | zero => intro _ _; exact EditPath.nil
    | succ j ihj =>
      intro hi hj
      have hjl : j < h.length := hj
      have hth : h.take (j + 1) = h.take j ++ [h[j]] := by
        rw [List.take_succ, List.getElem?_eq_getElem hjl]; rfl
      rw [hth]
      exact EditPath.del _ (ihj (Nat.zero_le _) (Nat.le_of_succ_le hj))
  | succ i ihi =>
    intro j
    induction j with
    | zero =>
      intro hi hj
      have hil : i < r.length := hi
      have htr : r.take (i + 1) = r.take i ++ [r[i]] := by
        rw [List.take_succ, List.getElem?_eq_getElem hil]; rfl
      rw [htr, dpF_succ_zero]
      have hb := ihi 0 (Nat.le_of_succ_le hi) (Nat.zero_le _)
      rw [dpF_zero_right] at hb
      exact EditPath.ins _ hb
    | succ j ihj =>
      intro hi hj
      have hil : i < r.length := hi
      have hjl : j < h.length := hj
      have htr : r.take (i + 1) = r.take i ++ [r[i]] := by
        rw [List.take_succ, List.getElem?_eq_getElem hil]; rfl
      have hth : h.take (j + 1) = h.take j ++ [h[j]] := by
        rw [List.take_succ, List.getElem?_eq_getElem hjl]; rfl
      rw [dpF_succ_succ]
      rcases min3_cases (dpF r h i (j + 1) + 1) (dpF r h (i + 1) j + 1)
          (dpF r h i j + if r.get? i = h.get? j then 0 else 1) with hm | hm | hm
      · rw [hm, htr]
        exact EditPath.ins _ (ihi (j + 1) (Nat.le_of_succ_le hi) hj)
      · rw [hm, hth]
        exact EditPath.del _ (ihj hi (Nat.le_of_succ_le hj))
      · rw [hm]
        by_cases hc : r.get? i = h.get? j
        · rw [if_pos hc, Nat.add_zero]
          have heq : h[j] = r[i] := by
            rw [List.get?_eq_getElem?, List.get?_eq_getElem?,
              List.getElem?_eq_getElem hil, List.getElem?_eq_getElem hjl] at hc
            exact (Option.some_inj.mp hc).symm
          rw [htr, hth, heq]
          exact EditPath.keep _ (ihi j (Nat.le_of_succ_le hi) (Nat.le_of_succ_le hj))
        · rw [if_neg hc, htr, hth]
          exact EditPath.subst _ _ (ihi j (Nat.le_of_succ_le hi) (Nat.le_of_succ_le hj))

theorem dpF_le_editPath {α : Type _} [DecidableEq α] {xs ys : List α} {k : ℕ}
    (hp : EditPath xs ys k) : dpF ys xs ys.length xs.length ≤ k := by
  induction hp with
  | nil => exact Nat.le_refl _
  | keep a hp ih =>
    rename_i xs ys n
    rw [List.length_append, List.length_append]
    simp only [List.length_singleton]
    rw [dpF_succ_succ]
    have h3 : dpF (ys ++ [a]) (xs ++ [a]) ys.length xs.length =
        dpF ys xs ys.length xs.length :=
      dpF_congr_take _ _ _ _ _ _ (by rw [List.take_left, List.take_length])
        (by rw [List.take_left, List.take_length])
    have hcost : (ys ++ [a]).get? ys.length = (xs ++ [a]).get? xs.length := by
      rw [List.get?_concat_length, List.get?_concat_length]
    refine le_trans (Nat.min_le_right _ _) ?_
    rw [if_pos hcost, Nat.add_zero, h3]
    exact ih
  | subst a b hp ih =>
    rename_i xs ys n
    rw [List.length_append, List.length_append]
    simp only [List.length_singleton]
    rw [dpF_succ_succ]
    have h3 : dpF (ys ++ [b]) (xs ++ [a]) ys.length xs.length =
        dpF ys xs ys.length xs.length :=
      dpF_congr_take _ _ _ _ _ _ (by rw [List.take_left, List.take_length])
        (by rw [List.take_left, List.take_length])
    refine le_trans (Nat.min_le_right _ _) ?_
    rw [h3]
    have hite : (if (ys ++ [b]).get? ys.length = (xs ++ [a]).get? xs.length
        then 0 else 1) ≤ 1 := by
      split <;> omega
    omega
  | del a hp ih =>
    rename_i xs ys n
    rw [List.length_append]
    simp only [List.length_singleton]
    cases ys with
    | nil =>
      have hib : xs.length ≤ n := by simpa [dpF_zero_left] using ih
      exact Nat.succ_le_succ hib
    | cons y ys' =>
      simp only [List.length_cons]
      rw [dpF_succ_succ]
      refine le_trans (le_trans (Nat.min_le_left _ _) (Nat.min_le_right _ _)) ?_
      have h3 : dpF (y :: ys') (xs ++ [a]) (ys'.length + 1) xs.length =
          dpF (y :: ys') xs (ys'.length + 1) xs.length :=
        dpF_congr_take _ _ _ _ _ _ rfl (by rw [List.take_left, List.take_length])
      rw [h3]
      have hib := ih
      simp only [List.length_cons] at hib
      omega
  | ins b hp ih =>
    rename_i xs ys n
    rw [List.length_append]
    simp only [List.length_singleton]
    cases xs with
    | nil =>
      have hib : ys.length ≤ n := by simpa [dpF_zero_right] using ih
      exact Nat.succ_le_succ hib
    | cons z xs' =>
      simp only [List.length_cons]
      rw [dpF_succ_succ]
      refine le_trans (le_trans (Nat.min_le_left _ _) (Nat.min_le_left _ _)) ?_
      have h3 : dpF (ys ++ [b]) (z :: xs') ys.length (xs'.length + 1) =
          dpF ys (z :: xs') ys.length (xs'.length + 1) :=
        dpF_congr_take _ _ _ _ _ _ (by rw [List.take_left, List.take_length]) rfl
      rw [h3]
      have hib := ih
      simp only [List.length_cons] at hib
      omega

/-- C3: the token-level WER computation.  When the reference has `n > 0`
tokens, the returned edit count is the least cost of any aligned sequence of
single-token insertions, deletions and substitutions transforming the
hypothesis into the reference, and the result is `(edits / n, edits, n)`
with the ratio taken exactly in `ℚ`; when `n = 0` the result is the special
case `(0 if m = 0 else 1, m, 0)`, so `wer([], []) = (0, 0, 0)` and
`wer([], [a, b]) = (1, 2, 0)`. -/
theorem wer_tokens_correct {α : Type _} [DecidableEq α] (r h : List α) :
    (0 < r.length →
      IsLeast {k | EditPath h r k} (dpF r h r.length h.length) ∧
      wer_tokens r h =
        ((dpF r h r.length h.length : ℚ) / (r.length : ℚ),
          dpF r h r.length h.length, r.length)) ∧
    (r.length = 0 →
      wer_tokens r h = ((if h.length = 0 then (0 : ℚ) else 1), h.length, 0)) ∧
    wer_tokens ([] : List (List Char)) [] = ((0 : ℚ), 0, 0) ∧
    wer_tokens ([] : List (List Char)) [String.toList "a", String.toList "b"] =
      ((1 : ℚ), 2, 0) := by
  refine ⟨?_, ?_, by decide, by decide⟩
  · intro hn
    constructor
    · constructor
      · have hg := editPath_dpF r h r.length h.length (Nat.le_refl _) (Nat.le_refl _)
        simpa [List.take_length] using hg
      · intro k hk
        exact dpF_le_editPath hk
    · simp only [wer_tokens]
      rw [if_neg (by omega)]
  · intro hn0
    simp only [wer_tokens]
    rw [if_pos hn0, hn0]

/-- Concrete reference token list for instantiating the WER theorem. -/
def tokA : List (List Char) := [String.toList "a", String.toList "b"]

/-- Concrete hypothesis token list for instantiating the WER theorem. -/
def tokB : List (List Char) := [String.toList "a", String.toList "c"]

theorem wer_tokens_correct_witness :
    IsLeast {k | EditPath tokB tokA k} (dpF tokA tokB tokA.length tokB.length) ∧
    wer_tokens tokA tokB =
      ((dpF tokA tokB tokA.length tokB.length : ℚ) / (tokA.length : ℚ),
        dpF tokA tokB tokA.length tokB.length, tokA.length) :=
  (wer_tokens_correct tokA tokB).1 (by decide)

/-!
Concrete evaluations of the embedded functions, matching hand-traced runs
of the Python source (including the spec's end-to-end WER example).
-/

example : dedupeManifest [String.toList "a\tX", String.toList "a\tY", String.toList "b\tZ"] = [(String.toList "a", String.toList "Y"), (String.toList "b", String.toList "Z")] := by decide

example : runSynthesis ["t1", "t2", "t3", "t4", "t5"] (fun j => if j = 3 then 7 else 0) = ⟨7, [1, 2, 3], [(1, "t1"), (2, "t2")]⟩ := by decide

example : specExtract (String.toList "Final transcription:\n\n\nhello world\n======\n") = String.toList "hello world" := by decide

example : norm (String.toList "  Hello—there…  THE  end ") = String.toList "hello-there... the end" := by decide

example : tokenize (String.toList "he is an expert") = [String.toList "he", String.toList "is", String.toList "an", String.toList "expert"] := by decide

example : (wer_light (String.toList "He is an expert") (String.toList "He is an expertt")).2 = (1, 4) := by decide

example : wer_light (String.toList "He is an expert") (String.toList "He is an expertt") = ((1 : ℚ) / 4, 1, 4) := by
  have h1 : dpF (tokenize (norm (String.toList "He is an expert")))
      (tokenize (norm (String.toList "He is an expertt"))) 4 4 = 1 := by decide
  have h2 : (tokenize (norm (String.toList "He is an expert"))).length = 4 := by decide
  have h3 : (tokenize (norm (String.toList "He is an expertt"))).length = 4 := by decide
  simp only [wer_light, wer_tokens, h1, h2, h3]
  norm_num

example : wer_tokens ([] : List (List Char)) [] = (0, 0, 0) := by decide

example : wer_tokens ([] : List (List Char)) [String.toList "a", String.toList "b"] = (1, 2, 0) := by decide

example : extract_final_transcription (String.toList "Final transcription:\n\n\nhello world\n======\n") = String.toList "hello world" := by decide

example : extract_final_transcription (String.toList "log\nBatch transcription failed: xyz\nmore") = [] := by decide

example : extract_final_transcription (String.toList "a\nb\n") = String.toList "b" := by decide

example : extract_final_transcription [] = [] := by decide
